import Mathlib

/-!
Verification of the glyph metric normalization and bit-depth packing pipeline
of `core/tools/codegen/gen_font.py`.

The Python functions are shallowly embedded as executable Lean definitions:
pixel buffers are `List Nat` (byte values), Python `int` metrics are `Int`,
functions that can raise (`ValueError` / failed `assert` / `bytes()` range
errors) return `Except GenError _` or `Option _`.
-/

set_option maxRecDepth 8000

namespace GenFont

/-- Error kinds the generator can raise: `ValueError` (explicit `raise` in
`Glyph.from_face` and the unsupported-`bpp` branch of `process_bitmap_buffer`)
and `AssertionError` (a failed `assert`). -/
inductive GenError where
  | valueError
  | assertionError
deriving DecidableEq

/-- One packed byte for `bpp = 1`: the body of the list comprehension at
lines 89-103 of `gen_font.py`, packing eight pixels MSB-first from their
`0x80` bits. -/
def pack1_chunk (a b c d e f g h : Nat) : Nat :=
  (a &&& 0x80) ||| ((b &&& 0x80) >>> 1) ||| ((c &&& 0x80) >>> 2) ||| ((d &&& 0x80) >>> 3) |||
    ((e &&& 0x80) >>> 4) ||| ((f &&& 0x80) >>> 5) ||| ((g &&& 0x80) >>> 6) |||
    ((h &&& 0x80) >>> 7)

/-- The `bpp = 1` comprehension over the 8-slices `res[i:i+8]`; after padding
every slice is full, so the catch-all is never reached on the real inputs. -/
def pack1_go : List Nat → List Nat
  | a :: b :: c :: d :: e :: f :: g :: h :: rest => pack1_chunk a b c d e f g h :: pack1_go rest
  | _ => []

/-- One packed byte for `bpp = 2` (line 110): four pixels via their top two
bits (`0xC0`), MSB-first. -/
def pack2_chunk (a b c d : Nat) : Nat :=
  (a &&& 0xC0) ||| ((b &&& 0xC0) >>> 2) ||| ((c &&& 0xC0) >>> 4) ||| ((d &&& 0xC0) >>> 6)

/-- The `bpp = 2` comprehension over the 4-slices `res[i:i+4]`. -/
def pack2_go : List Nat → List Nat
  | a :: b :: c :: d :: rest => pack2_chunk a b c d :: pack2_go rest
  | _ => []

/-- The in-place zero padding of `res` to a multiple of `m`
(lines 85-88 and 105-108): `if len(res) % m != 0: append (m - len % m)` zeros. -/
def pad_mult (m : Nat) (l : List Nat) : List Nat :=
  if l.length % m = 0 then l else l ++ List.replicate (m - l.length % m) 0

/-- The pair loop of the `bpp = 4` branch (lines 117-118):
`for a, b in zip(row[::2], row[1::2]): res.append((b & 0xF0) | (a >> 4))`. -/
def pack4_pairs : List Nat → List Nat
  | a :: b :: rest => ((b &&& 0xF0) ||| (a >>> 4)) :: pack4_pairs rest
  | _ => []

/-- Row `y` of the buffer: `buf[y*width : (y+1)*width]` (line 116). -/
def bufRow (buf : List Nat) (width y : Nat) : List Nat :=
  (buf.drop (y * width)).take width

/-- The bytes row `y` contributes in the `bpp = 4` branch (lines 115-120):
the packed pairs and, when `width` is odd, `row[-1] >> 4`.
(`getLastD _ 0` stands for Python's `row[-1]`, which is always defined on the
reachable inputs since an odd `width` is positive and the row is non-empty.) -/
def pack4_row (buf : List Nat) (width y : Nat) : List Nat :=
  pack4_pairs (bufRow buf width y) ++
    (if width % 2 = 1 then [(bufRow buf width y).getLastD 0 >>> 4] else [])

/-- `process_bitmap_buffer(buf, bpp, width, height)` (lines 80-125).
`none` models the `raise ValueError` for an unsupported `bpp`. -/
def process_bitmap_buffer (buf : List Nat) (bpp width height : Nat) : Option (List Nat) :=
  if bpp = 1 then some (pack1_go (pad_mult 8 buf))
  else if bpp = 2 then some (pack2_go (pad_mult 4 buf))
  else if bpp = 4 then some ((List.range height).flatMap (pack4_row buf width))
  else if bpp = 8 then some buf
  else none

/-- `drop_left_columns(buf, width, drop)` (lines 128-133): keep `buf[i]`
whenever `i % width >= drop`. -/
def drop_left_columns (buf : List Nat) (width dropCols : Int) : List Nat :=
  ((List.range buf.length).filter (fun i : Nat => decide (dropCols ≤ (i : Int) % width))).map
    (fun i => buf.getD i 0)

/-- The `Glyph` dataclass (lines 136-146). `width`/`rows` are bitmap
dimensions (never negative in Python on any reachable path), metrics stay
`Int` as in Python. -/
structure Glyph where
  char : Char
  width : Nat
  rows : Nat
  advance : Int
  bearingX : Int
  bearingY : Int
  buf : List Nat
  num_grays : Nat
  inverse_colors : Bool
deriving DecidableEq

deriving instance DecidableEq for Except

/-- `MODIFY_BEARING_X` (lines 44-75): the NFKC-normalized allow-list of
characters whose negative left bearing is folded into `advance`. All listed
characters are their own NFKC normal form. -/
def MODIFY_BEARING_X : List Char :=
  ['Ä', 'À', 'Â', 'Ã', 'Æ', 'Î', 'Ï', 'Ì', 'î', 'ï', 'ì', 'ÿ', 'Ý', 'Ÿ', 'Á', 'ý',
   'A', 'X', 'Y', 'j', 'x', 'y', '}', ')', ',', '/', '_']

/-- The left-shave step of `Glyph.from_face` (lines 169-175): starting from
`remove_left = shaveX`, when `shaveX > 0` subtract
`diff = min(advance, bearingX, shaveX)` from `advance`, `bearingX` and
`remove_left`. Returns `(advance, bearingX, remove_left)`. -/
def shave_adjust (advance bearingX shaveX : Int) : Int × Int × Int :=
  if 0 < shaveX then
    (advance - min advance (min bearingX shaveX),
     bearingX - min advance (min bearingX shaveX),
     shaveX - min advance (min bearingX shaveX))
  else (advance, bearingX, shaveX)

/-- The tail of `Glyph.from_face` after the negative-`bearingX` handling
(lines 184-213): range asserts on `advance`/`bearingX`, the negative
`bearingY` clamp (lines 187-189), the `bearingY` range assert, and the
left-column removal block (lines 194-201) with its asserts. -/
def from_face_rest (c : Char) (width rows : Nat) (advance bearingX bearingY : Int)
    (buf : List Nat) (num_grays : Nat) (remove_left : Int) (inverse_colors : Bool) :
    Except GenError Glyph :=
  if ¬ (0 ≤ advance ∧ advance ≤ 255) then .error .assertionError
  else if ¬ (0 ≤ bearingX ∧ bearingX ≤ 255) then .error .assertionError
  else
    let bearingY2 := if bearingY < 0 then 0 else bearingY
    if ¬ (0 ≤ bearingY2 ∧ bearingY2 ≤ 255) then .error .assertionError
    else if 0 < remove_left ∧ 0 < width then
      if bearingX ≠ 0 then .error .assertionError
      else
        let buf2 := drop_left_columns buf (width : Int) remove_left
        if ¬ (remove_left < (width : Int)) then .error .assertionError
        else if ¬ (remove_left < advance) then .error .assertionError
        else .ok ⟨c, width - remove_left.toNat, rows, advance - remove_left, bearingX,
          bearingY2, buf2, num_grays, inverse_colors⟩
    else .ok ⟨c, width, rows, advance, bearingX, bearingY2, buf, num_grays, inverse_colors⟩

/-- `Glyph.from_face` (lines 148-213) on the already-rasterized data: `width`,
`rows` and `buf` from `face.glyph.bitmap`, the metrics already divided by 64.
The entry assert `len(bitmap.buffer) == bitmap.pitch * bitmap.rows` (with
`pitch == width`) is kept; the fixed-point divisibility asserts concern the
raw FreeType fields and are absorbed into the integral inputs. The explicit
`raise ValueError` for a non-allow-listed negative `bearingX` (line 183) is
`GenError.valueError`. -/
def Glyph.from_face (c : Char) (width rows : Nat) (advance bearingX bearingY : Int)
    (buf : List Nat) (num_grays : Nat) (shaveX : Int) (inverse_colors : Bool) :
    Except GenError Glyph :=
  if buf.length ≠ width * rows then .error .assertionError
  else
    let s := shave_adjust advance bearingX shaveX
    if s.2.1 < 0 then
      if c ∈ MODIFY_BEARING_X then
        from_face_rest c width rows (s.1 + (-s.2.1)) 0 bearingY buf num_grays s.2.2
          inverse_colors
      else .error .valueError
    else from_face_rest c width rows s.1 s.2.1 bearingY buf num_grays s.2.2 inverse_colors

/-- `Glyph.process_byte` (lines 220-224): XOR each byte with `0xFF` when
`inverse_colors` is set. -/
def Glyph.process_byte (g : Glyph) (b : Nat) : Nat :=
  if g.inverse_colors then b ^^^ 0xFF else b

/-- `Glyph.to_bytes` (lines 242-257): the 5-byte header followed, when `buf`
is non-empty, by the packed and (post-packing) transformed pixel data.
`none` models both a `ValueError` from `process_bitmap_buffer` and the
`ValueError` raised by `bytes(...)` when a value is outside `0..255`. -/
def Glyph.to_bytes (g : Glyph) (bpp : Nat) : Option (List Nat) :=
  let infos : List Int := [(g.width : Int), (g.rows : Int), g.advance, g.bearingX, g.bearingY]
  if ¬ infos.all (fun v => decide (0 ≤ v ∧ v ≤ 255)) then none
  else if g.buf ≠ [] then
    match process_bitmap_buffer g.buf bpp g.width g.rows with
    | none => none
    | some packed =>
      let data := packed.map g.process_byte
      if ¬ data.all (fun v => decide (v ≤ 255)) then none
      else some (infos.map Int.toNat ++ data)
  else some (infos.map Int.toNat)

/-- One step of the vertical-extent accumulation (lines 560-564 of
`write_rust_file`, identical to lines 438-441 of `_write_char_definition`):
`yMin = bearingY - rows`, `yMax = yMin + rows`, fold with `min`/`max`. -/
def update_extent (acc : Int × Int) (g : Glyph) : Int × Int :=
  (min acc.1 (g.bearingY - (g.rows : Int)),
   max acc.2 ((g.bearingY - (g.rows : Int)) + (g.rows : Int)))

/-- The whole-font vertical extent `(font_ymin, font_ymax)`: the accumulation
seeded with `(0, 0)` (lines 552-564) over the glyphs of the built variant. -/
def font_y_extent (gs : List Glyph) : Int × Int :=
  gs.foldl update_extent (0, 0)

/-- `max_height` of the emitted font info: `font_ymax - font_ymin`
(line 578 / line 460). -/
def font_info_max_height (gs : List Glyph) : Int :=
  (font_y_extent gs).2 - (font_y_extent gs).1

/-- `baseline` of the emitted font info: `-font_ymin` (line 579 / line 461). -/
def font_info_baseline (gs : List Glyph) : Int :=
  -(font_y_extent gs).1

/-! ### Synthetic reference unpackers (one per bit depth)

These are not part of `gen_font.py`; they are the reference unpackers the
round-trip property of the spec asks for: each reads back, MSB-first, the
top `bpp` bits of every stored pixel. -/

/-- `bpp = 1` reference unpacker: each byte yields eight pixels, pixel `j`
being bit `7 - j` of the byte moved to the `0x80` position. -/
def unpack1 (packed : List Nat) : List Nat :=
  packed.flatMap (fun x =>
    [x &&& 0x80, (x <<< 1) &&& 0x80, (x <<< 2) &&& 0x80, (x <<< 3) &&& 0x80,
     (x <<< 4) &&& 0x80, (x <<< 5) &&& 0x80, (x <<< 6) &&& 0x80, (x <<< 7) &&& 0x80])

/-- `bpp = 2` reference unpacker: each byte yields four pixels, pixel `j`
being the two bits at positions `7-2j, 6-2j` moved to the `0xC0` position. -/
def unpack2 (packed : List Nat) : List Nat :=
  packed.flatMap (fun x =>
    [x &&& 0xC0, (x <<< 2) &&& 0xC0, (x <<< 4) &&& 0xC0, (x <<< 6) &&& 0xC0])

/-- `bpp = 4` per-byte reference unpacker: the low nibble is the first pixel
of the pair, the high nibble the second, each moved to the `0xF0` position. -/
def unpack_byte4 (x : Nat) : List Nat :=
  [(x &&& 0x0F) <<< 4, x &&& 0xF0]

/-- Bytes per packed row at `bpp = 4`. -/
def row_bytes4 (width : Nat) : Nat := width / 2 + width % 2

/-- `bpp = 4` reference unpacker: row-scoped like the packer, `row_bytes4`
bytes per row, two pixels per byte. -/
def unpack4 (packed : List Nat) (width height : Nat) : List Nat :=
  (List.range height).flatMap (fun y =>
    ((packed.drop (y * row_bytes4 width)).take (row_bytes4 width)).flatMap unpack_byte4)

/-! ### Bit-arithmetic helpers -/

theorem and255_eq_mod (x : Nat) : x &&& 255 = x % 256 := by
  have h := Nat.and_pow_two_sub_one_eq_mod x 8
  norm_num at h
  exact h

theorem and_mask_mod256 (x m : Nat) (hm : 255 &&& m = m) : x &&& m = x % 256 &&& m := by
  conv_lhs => rw [← hm, ← Nat.and_assoc]
  rw [and255_eq_mod]

theorem and128_cases (x : Nat) : x &&& 128 = 0 ∨ x &&& 128 = 128 := by
  rw [and_mask_mod256 x 128 (by decide)]
  exact (by decide : ∀ z < 256, z &&& 128 = 0 ∨ z &&& 128 = 128) _ (Nat.mod_lt x (by decide))

theorem and192_cases (x : Nat) :
    x &&& 192 = 0 ∨ x &&& 192 = 64 ∨ x &&& 192 = 128 ∨ x &&& 192 = 192 := by
  rw [and_mask_mod256 x 192 (by decide)]
  exact (by decide : ∀ z < 256, z &&& 192 = 0 ∨ z &&& 192 = 64 ∨ z &&& 192 = 128 ∨
    z &&& 192 = 192) _ (Nat.mod_lt x (by decide))

theorem and240_eq (x : Nat) : x &&& 240 = 16 * (x % 256 / 16) := by
  rw [and_mask_mod256 x 240 (by decide)]
  exact (by decide : ∀ z < 256, z &&& 240 = 16 * (z / 16)) _ (Nat.mod_lt x (by decide))

theorem and15_eq (x : Nat) : x &&& 15 = x % 16 := by
  have h := Nat.and_pow_two_sub_one_eq_mod x 4
  norm_num at h
  exact h

theorem shr4_eq (x : Nat) : x >>> 4 = x / 16 := by
  rw [Nat.shiftRight_eq_div_pow]

theorem shl4_eq (x : Nat) : x <<< 4 = 16 * x := by
  rw [Nat.shiftLeft_eq]
  omega

theorem or_eq_add_pow (i x y : Nat) (hx : x % 2 ^ i = 0) (hy : y < 2 ^ i) : x ||| y = x + y := by
  have hd : 2 ^ i * (x / 2 ^ i) = x := Nat.mul_div_cancel' (Nat.dvd_of_mod_eq_zero hx)
  calc x ||| y = 2 ^ i * (x / 2 ^ i) ||| y := by rw [hd]
    _ = 2 ^ i * (x / 2 ^ i) + y := (Nat.mul_add_lt_is_or hy _).symm
    _ = x + y := by rw [hd]

theorem or_eq_add16 (x y : Nat) (hx : x % 16 = 0) (hy : y < 16) : x ||| y = x + y :=
  or_eq_add_pow 4 x y (by rw [show (2 : Nat) ^ 4 = 16 by norm_num]; exact hx)
    (by rw [show (2 : Nat) ^ 4 = 16 by norm_num]; exact hy)

/-- Unpacking one `bpp = 1` packed byte recovers the eight `0x80` pixel bits. -/
theorem unpack1_chunk (a b c d e f g h : Nat) :
    [pack1_chunk a b c d e f g h &&& 128, (pack1_chunk a b c d e f g h <<< 1) &&& 128,
     (pack1_chunk a b c d e f g h <<< 2) &&& 128, (pack1_chunk a b c d e f g h <<< 3) &&& 128,
     (pack1_chunk a b c d e f g h <<< 4) &&& 128, (pack1_chunk a b c d e f g h <<< 5) &&& 128,
     (pack1_chunk a b c d e f g h <<< 6) &&& 128, (pack1_chunk a b c d e f g h <<< 7) &&& 128]
      = [a &&& 128, b &&& 128, c &&& 128, d &&& 128, e &&& 128, f &&& 128, g &&& 128,
         h &&& 128] := by
  rcases and128_cases a with ha | ha <;> rcases and128_cases b with hb | hb <;>
    rcases and128_cases c with hc | hc <;> rcases and128_cases d with hd | hd <;>
    rcases and128_cases e with he | he <;> rcases and128_cases f with hf | hf <;>
    rcases and128_cases g with hg | hg <;> rcases and128_cases h with hh | hh <;>
    simp only [pack1_chunk, ha, hb, hc, hd, he, hf, hg, hh] <;> decide

/-- Unpacking one `bpp = 2` packed byte recovers the four `0xC0` pixel pairs. -/
theorem unpack2_chunk (a b c d : Nat) :
    [pack2_chunk a b c d &&& 192, (pack2_chunk a b c d <<< 2) &&& 192,
     (pack2_chunk a b c d <<< 4) &&& 192, (pack2_chunk a b c d <<< 6) &&& 192]
      = [a &&& 192, b &&& 192, c &&& 192, d &&& 192] := by
  rcases and192_cases a with ha | ha | ha | ha <;> rcases and192_cases b with hb | hb | hb | hb <;>
    rcases and192_cases c with hc | hc | hc | hc <;> rcases and192_cases d with hd | hd | hd | hd <;>
    simp only [pack2_chunk, ha, hb, hc, hd] <;> decide

/-- Unpacking one `bpp = 4` pair byte recovers both `0xF0` nibbles:
the low nibble is the first pixel, the high nibble the second. -/
theorem unpack4_pair (a b : Nat) (ha : a < 256) :
    unpack_byte4 ((b &&& 0xF0) ||| (a >>> 4)) = [a &&& 0xF0, b &&& 0xF0] := by
  have h1 : b &&& 240 = 16 * (b % 256 / 16) := and240_eq b
  have h2 : a >>> 4 = a / 16 := shr4_eq a
  have hB : (b &&& 0xF0) ||| (a >>> 4) = 16 * (b % 256 / 16) + a / 16 := by
    rw [h1, h2]
    exact or_eq_add16 _ _ (by omega) (by omega)
  show [(((b &&& 0xF0) ||| (a >>> 4)) &&& 15) <<< 4, ((b &&& 0xF0) ||| (a >>> 4)) &&& 240]
      = [a &&& 240, b &&& 240]
  rw [hB, and15_eq, shl4_eq, and240_eq, and240_eq a, and240_eq b]
  simp only [List.cons.injEq, and_true]
  constructor <;> omega

/-- Unpacking the lone odd-width tail byte: the low nibble is the pixel's top
nibble, the padding (high-nibble) pixel reads back as zero. -/
theorem unpack4_tail (a : Nat) (ha : a < 256) :
    unpack_byte4 (a >>> 4) = [a &&& 0xF0, 0] := by
  show [((a >>> 4) &&& 15) <<< 4, (a >>> 4) &&& 240] = [a &&& 240, 0]
  rw [shr4_eq, and15_eq, shl4_eq, and240_eq, and240_eq a]
  simp only [List.cons.injEq, and_true]
  constructor <;> omega

/-! ### List helpers -/

theorem getD_map_zero (l : List Nat) (f : Nat → Nat) (hf : f 0 = 0) (i : Nat) :
    (l.map f).getD i 0 = f (l.getD i 0) := by
  rcases Nat.lt_or_ge i l.length with h | h
  · rw [List.getD_eq_getElem?_getD, List.getD_eq_getElem?_getD, List.getElem?_map,
      List.getElem?_eq_getElem h]
    rfl
  · rw [List.getD_eq_getElem?_getD, List.getD_eq_getElem?_getD,
      List.getElem?_eq_none (by simpa using h), List.getElem?_eq_none h]
    simpa using hf.symm

theorem getD_append_left (l1 l2 : List Nat) (i : Nat) (h : i < l1.length) :
    (l1 ++ l2).getD i 0 = l1.getD i 0 := by
  rw [List.getD_eq_getElem?_getD, List.getD_eq_getElem?_getD, List.getElem?_append_left h]

theorem pad_mult_getD_lt (m : Nat) (l : List Nat) (i : Nat) (h : i < l.length) :
    (pad_mult m l).getD i 0 = l.getD i 0 := by
  unfold pad_mult
  split
  · rfl
  · exact getD_append_left l _ i h

theorem pad_mult_getD_ge (m : Nat) (l : List Nat) (i : Nat) (h : l.length ≤ i) :
    (pad_mult m l).getD i 0 = 0 := by
  unfold pad_mult
  split
  · rw [List.getD_eq_getElem?_getD, List.getElem?_eq_none h]
    rfl
  · rcases Nat.lt_or_ge i (l.length + (m - l.length % m)) with h2 | h2
    · rw [List.getD_eq_getElem?_getD, List.getElem?_append_right h,
        List.getElem?_replicate_of_lt (by omega)]
      rfl
    · rw [List.getD_eq_getElem?_getD, List.getElem?_eq_none (by simp; omega)]
      rfl

theorem pad_mult_length_mod (m : Nat) (l : List Nat) (hm : 0 < m) :
    (pad_mult m l).length % m = 0 := by
  unfold pad_mult
  split
  · assumption
  · have h1 : l.length % m < m := Nat.mod_lt _ hm
    simp only [List.length_append, List.length_replicate]
    rw [Nat.add_mod, Nat.mod_eq_of_lt (a := m - l.length % m) (by omega),
      show l.length % m + (m - l.length % m) = m by omega, Nat.mod_self]

theorem pad8_length (l : List Nat) : (pad_mult 8 l).length = (l.length + 7) / 8 * 8 := by
  unfold pad_mult
  split
  · omega
  · simp only [List.length_append, List.length_replicate]
    omega

theorem pad4_length (l : List Nat) : (pad_mult 4 l).length = (l.length + 3) / 4 * 4 := by
  unfold pad_mult
  split
  · omega
  · simp only [List.length_append, List.length_replicate]
    omega

/-! ### `bpp = 1` and `bpp = 2`: lengths and round trips -/

theorem pack1_go_length : ∀ l : List Nat, (pack1_go l).length = l.length / 8
  | a :: b :: c :: d :: e :: f :: g :: h :: rest => by
    simp only [pack1_go, List.length_cons, pack1_go_length rest]
    omega
  | [] => by simp [pack1_go]
  | [_] => by simp [pack1_go]
  | [_, _] => by simp [pack1_go]
  | [_, _, _] => by simp [pack1_go]
  | [_, _, _, _] => by simp [pack1_go]
  | [_, _, _, _, _] => by simp [pack1_go]
  | [_, _, _, _, _, _] => by simp [pack1_go]
  | [_, _, _, _, _, _, _] => by simp [pack1_go]

theorem pack2_go_length : ∀ l : List Nat, (pack2_go l).length = l.length / 4
  | a :: b :: c :: d :: rest => by
    simp only [pack2_go, List.length_cons, pack2_go_length rest]
    omega
  | [] => by simp [pack2_go]
  | [_] => by simp [pack2_go]
  | [_, _] => by simp [pack2_go]
  | [_, _, _] => by simp [pack2_go]

theorem unpack1_cons (x : Nat) (xs : List Nat) :
    unpack1 (x :: xs) = unpack1 [x] ++ unpack1 xs := by
  simp [unpack1]

theorem unpack2_cons (x : Nat) (xs : List Nat) :
    unpack2 (x :: xs) = unpack2 [x] ++ unpack2 xs := by
  simp [unpack2]

/-- Round trip for the `bpp = 1` packer on an 8-aligned pixel list. -/
theorem unpack1_pack1_go : ∀ l : List Nat, l.length % 8 = 0 →
    unpack1 (pack1_go l) = l.map (fun x => x &&& 128)
  | [], _ => rfl
  | a :: b :: c :: d :: e :: f :: g :: h :: rest, hl => by
    have hr : rest.length % 8 = 0 := by
      simp only [List.length_cons] at hl
      omega
    rw [pack1_go, unpack1_cons, unpack1_pack1_go rest hr]
    show [pack1_chunk a b c d e f g h &&& 128, (pack1_chunk a b c d e f g h <<< 1) &&& 128,
      (pack1_chunk a b c d e f g h <<< 2) &&& 128, (pack1_chunk a b c d e f g h <<< 3) &&& 128,
      (pack1_chunk a b c d e f g h <<< 4) &&& 128, (pack1_chunk a b c d e f g h <<< 5) &&& 128,
      (pack1_chunk a b c d e f g h <<< 6) &&& 128, (pack1_chunk a b c d e f g h <<< 7) &&& 128]
        ++ rest.map (fun x => x &&& 128) = _
    rw [unpack1_chunk]
    simp
  | [_], hl => by simp at hl
  | [_, _], hl => by simp at hl
  | [_, _, _], hl => by simp at hl
  | [_, _, _, _], hl => by simp at hl
  | [_, _, _, _, _], hl => by simp at hl
  | [_, _, _, _, _, _], hl => by simp at hl
  | [_, _, _, _, _, _, _], hl => by simp at hl

/-- Round trip for the `bpp = 2` packer on a 4-aligned pixel list. -/
theorem unpack2_pack2_go : ∀ l : List Nat, l.length % 4 = 0 →
    unpack2 (pack2_go l) = l.map (fun x => x &&& 192)
  | [], _ => rfl
  | a :: b :: c :: d :: rest, hl => by
    have hr : rest.length % 4 = 0 := by
      simp only [List.length_cons] at hl
      omega
    rw [pack2_go, unpack2_cons, unpack2_pack2_go rest hr]
    show [pack2_chunk a b c d &&& 192, (pack2_chunk a b c d <<< 2) &&& 192,
      (pack2_chunk a b c d <<< 4) &&& 192, (pack2_chunk a b c d <<< 6) &&& 192]
        ++ rest.map (fun x => x &&& 192) = _
    rw [unpack2_chunk]
    simp
  | [_], hl => by simp at hl
  | [_, _], hl => by simp at hl
  | [_, _, _], hl => by simp at hl

/-! ### Chunked flatMap machinery (for the row-scoped `bpp = 4` format) -/

theorem flat_chunks_length (p : Nat → List Nat) (r : Nat) :
    ∀ h : Nat, (∀ y, y < h → (p y).length = r) → ((List.range h).flatMap p).length = h * r
  | 0, _ => by simp
  | h + 1, hr => by
    rw [List.range_succ, List.flatMap_append (List.range h) [h] p]
    simp only [List.length_append, List.flatMap_cons, List.flatMap_nil, List.append_nil]
    rw [flat_chunks_length p r h (fun y hy => hr y (by omega)), hr h (by omega)]
    rw [Nat.succ_mul]

theorem flat_chunks_extract (p : Nat → List Nat) (r : Nat) :
    ∀ h : Nat, (∀ y, y < h → (p y).length = r) → ∀ y, y < h →
      (((List.range h).flatMap p).drop (y * r)).take r = p y
  | 0, _, y, hy => absurd hy (by omega)
  | h + 1, hr, y, hy => by
    rw [List.range_succ, List.flatMap_append (List.range h) [h] p]
    simp only [List.flatMap_cons, List.flatMap_nil, List.append_nil]
    have hlen : ((List.range h).flatMap p).length = h * r :=
      flat_chunks_length p r h (fun z hz => hr z (by omega))
    rcases Nat.lt_or_ge y h with hyh | hyh
    · have h3 : y * r + r ≤ h * r := by
        have h2 : (y + 1) * r ≤ h * r := Nat.mul_le_mul_right r (Nat.succ_le_of_lt hyh)
        have e1 : (y + 1) * r = y * r + r := Nat.succ_mul y r
        omega
      rw [List.drop_append_of_le_length (by omega),
        List.take_append_of_le_length (by simp only [List.length_drop]; omega)]
      exact flat_chunks_extract p r h (fun z hz => hr z (by omega)) y hyh
    · have hy2 : y = h := by omega
      subst hy2
      rw [List.drop_left' (by omega)]
      exact List.take_of_length_le (by rw [hr y (by omega)])

/-! ### `bpp = 4` row lemmas -/

theorem pack4_pairs_length : ∀ l : List Nat, (pack4_pairs l).length = l.length / 2
  | a :: b :: rest => by
    simp only [pack4_pairs, List.length_cons, pack4_pairs_length rest]
    omega
  | [] => by simp [pack4_pairs]
  | [_] => by simp [pack4_pairs]

theorem bufRow_length (buf : List Nat) (w h y : Nat) (hlen : buf.length = w * h)
    (hy : y < h) : (bufRow buf w y).length = w := by
  have h3 : y * w + w ≤ h * w := by
    have h2 : (y + 1) * w ≤ h * w := Nat.mul_le_mul_right w (Nat.succ_le_of_lt hy)
    have e1 : (y + 1) * w = y * w + w := Nat.succ_mul y w
    omega
  have hc : w * h = h * w := Nat.mul_comm w h
  simp only [bufRow, List.length_take, List.length_drop]
  omega

theorem pack4_row_length (buf : List Nat) (w h y : Nat) (hlen : buf.length = w * h)
    (hy : y < h) : (pack4_row buf w y).length = row_bytes4 w := by
  have hr := bufRow_length buf w h y hlen hy
  simp only [pack4_row, List.length_append, pack4_pairs_length, hr, row_bytes4]
  rcases Nat.mod_two_eq_zero_or_one w with hw | hw
  · rw [if_neg (by omega : ¬ w % 2 = 1)]
    simp only [List.length_nil]
    omega
  · rw [if_pos hw]
    simp only [List.length_cons, List.length_nil]
    omega

theorem getLastD_irrel (l : List Nat) (h : l ≠ []) (d1 d2 : Nat) :
    l.getLastD d1 = l.getLastD d2 := by
  rw [List.getLastD_eq_getLast?, List.getLastD_eq_getLast?]
  rcases hq : l.getLast? with _ | x
  · exact absurd (List.getLast?_eq_none_iff.mp hq) h
  · rfl

/-- Round trip for one `bpp = 4` row: the packed row unpacks to the masked
pixels, followed by one zero padding pixel when the row length is odd. -/
theorem unpack_row4 : ∀ row : List Nat, (∀ x ∈ row, x < 256) →
    (pack4_pairs row ++
        (if row.length % 2 = 1 then [row.getLastD 0 >>> 4] else [])).flatMap unpack_byte4
      = row.map (fun x => x &&& 0xF0) ++ (if row.length % 2 = 1 then [0] else [])
  | [], _ => rfl
  | [a], hb => by
    show (pack4_pairs [a] ++ [([a] : List Nat).getLastD 0 >>> 4]).flatMap unpack_byte4
        = ([a].map fun x => x &&& 0xF0) ++ [0]
    rw [show pack4_pairs [a] = [] from by simp [pack4_pairs],
      show ([a] : List Nat).getLastD 0 = a from by simp]
    simp only [List.nil_append, List.flatMap_cons, List.flatMap_nil, List.append_nil,
      List.map_cons, List.map_nil]
    rw [unpack4_tail a (hb a (by simp))]
    rfl
  | a :: b :: rest, hb => by
    by_cases hne : rest = []
    · subst hne
      have h2 : ¬ ([a, b] : List Nat).length % 2 = 1 := by simp
      rw [if_neg h2, if_neg h2,
        show pack4_pairs [a, b] = [(b &&& 0xF0) ||| (a >>> 4)] from by simp [pack4_pairs]]
      simp only [List.append_nil, List.flatMap_cons, List.flatMap_nil]
      rw [unpack4_pair a b (hb a (by simp))]
      simp
    · have hbr : ∀ x ∈ rest, x < 256 := fun x hx => hb x (by simp [hx])
      have hlast : (a :: b :: rest).getLastD 0 = rest.getLastD 0 := by
        rw [List.getLastD_cons, List.getLastD_cons]
        exact getLastD_irrel rest hne b 0
      have hlen2 : (a :: b :: rest).length % 2 = rest.length % 2 := by
        simp only [List.length_cons]
        omega
      rw [hlast, hlen2,
        show pack4_pairs (a :: b :: rest)
            = ((b &&& 0xF0) ||| (a >>> 4)) :: pack4_pairs rest from by rw [pack4_pairs],
        List.cons_append, List.flatMap_cons, unpack4_pair a b (hb a (by simp)),
        unpack_row4 rest hbr]
      simp

theorem bufRow_mem_lt (buf : List Nat) (w y : Nat) (hb : ∀ x ∈ buf, x < 256) :
    ∀ x ∈ bufRow buf w y, x < 256 := fun x hx =>
  hb x (List.mem_of_mem_drop (List.mem_of_mem_take hx))

/-- Round trip for the whole `bpp = 4` format, row by row: slice `y` of the
unpacked stream is the masked row `y` of the pixel buffer, followed by one
zero padding pixel when `width` is odd. -/
theorem unpack4_pack4 (buf : List Nat) (w h : Nat) (hlen : buf.length = w * h)
    (hb : ∀ x ∈ buf, x < 256) (y : Nat) (hy : y < h) :
    ((unpack4 ((List.range h).flatMap (pack4_row buf w)) w h).drop (y * (w + w % 2))).take
        (w + w % 2)
      = (bufRow buf w y).map (fun x => x &&& 0xF0) ++ (if w % 2 = 1 then [0] else []) := by
  have hplen : ∀ z, z < h → (pack4_row buf w z).length = row_bytes4 w :=
    fun z hz => pack4_row_length buf w h z hlen hz
  have hext := flat_chunks_extract (pack4_row buf w) (row_bytes4 w) h hplen
  have hrow : ∀ z, z < h →
      ((((List.range h).flatMap (pack4_row buf w)).drop (z * row_bytes4 w)).take
          (row_bytes4 w)).flatMap unpack_byte4
        = (bufRow buf w z).map (fun x => x &&& 0xF0) ++ (if w % 2 = 1 then [0] else []) := by
    intro z hz
    rw [hext z hz, pack4_row]
    have hrl : (bufRow buf w z).length = w := bufRow_length buf w h z hlen hz
    have hthis := unpack_row4 (bufRow buf w z) (bufRow_mem_lt buf w z hb)
    rw [hrl] at hthis
    exact hthis
  have hu : unpack4 ((List.range h).flatMap (pack4_row buf w)) w h
      = (List.range h).flatMap (fun z =>
          (bufRow buf w z).map (fun x => x &&& 0xF0) ++ (if w % 2 = 1 then [0] else [])) := by
    rw [unpack4]
    exact List.flatMap_congr (fun z hz => hrow z (List.mem_range.mp hz))
  have hulen : ∀ z, z < h →
      ((bufRow buf w z).map (fun x => x &&& 0xF0)
          ++ (if w % 2 = 1 then [0] else [])).length = w + w % 2 := by
    intro z hz
    have hrl : (bufRow buf w z).length = w := bufRow_length buf w h z hlen hz
    rcases Nat.mod_two_eq_zero_or_one w with hw | hw
    · rw [if_neg (by omega)]
      simp only [List.length_append, List.length_map, List.length_nil, hrl]
      omega
    · rw [if_pos hw]
      simp only [List.length_append, List.length_map, List.length_cons, List.length_nil, hrl]
      omega
  rw [hu]
  exact flat_chunks_extract _ _ h hulen y hy

/-! ### Claim theorems -/

theorem getD_lt_mem (l : List Nat) (i : Nat) (h : i < l.length) : l.getD i 0 ∈ l := by
  rw [List.getD_eq_getElem?_getD, List.getElem?_eq_getElem h]
  exact List.getElem_mem h

/-- C6: for every buffer of length `width*height` with byte-valued pixels and
every `bpp` in {1,2,4,8}, unpacking `pack(buf, bpp, width, height)` with the
matching reference unpacker reproduces the top `bpp` bits of every original
pixel, and every padding pixel reads back as 0: for `bpp = 1, 2, 8` the
unpacked stream agrees with `buf` masked by `0x80` / `0xC0` / `0xFF` at every
index below `width*height` and is 0 from there on; for the row-scoped
`bpp = 4`, slice `y` of the unpacked stream is row `y` of `buf` masked by
`0xF0`, followed by a zero padding pixel when `width` is odd. -/
theorem c6_pack_unpack_roundtrip (buf : List Nat) (w h : Nat) (hlen : buf.length = w * h)
    (hb : ∀ x ∈ buf, x < 256) :
    (∃ p1, process_bitmap_buffer buf 1 w h = some p1
      ∧ (∀ i, i < w * h → (unpack1 p1).getD i 0 = buf.getD i 0 &&& 0x80)
      ∧ (∀ i, w * h ≤ i → (unpack1 p1).getD i 0 = 0))
    ∧ (∃ p2, process_bitmap_buffer buf 2 w h = some p2
      ∧ (∀ i, i < w * h → (unpack2 p2).getD i 0 = buf.getD i 0 &&& 0xC0)
      ∧ (∀ i, w * h ≤ i → (unpack2 p2).getD i 0 = 0))
    ∧ (∃ p4, process_bitmap_buffer buf 4 w h = some p4
      ∧ ∀ y, y < h → ((unpack4 p4 w h).drop (y * (w + w % 2))).take (w + w % 2)
          = (bufRow buf w y).map (fun x => x &&& 0xF0) ++ (if w % 2 = 1 then [0] else []))
    ∧ (∃ p8, process_bitmap_buffer buf 8 w h = some p8
      ∧ (∀ i, i < w * h → p8.getD i 0 = buf.getD i 0 &&& 0xFF)
      ∧ (∀ i, w * h ≤ i → p8.getD i 0 = 0)) := by
  refine ⟨⟨pack1_go (pad_mult 8 buf), rfl, ?_, ?_⟩,
    ⟨pack2_go (pad_mult 4 buf), rfl, ?_, ?_⟩,
    ⟨(List.range h).flatMap (pack4_row buf w), rfl,
      fun y hy => unpack4_pack4 buf w h hlen hb y hy⟩,
    ⟨buf, rfl, ?_, ?_⟩⟩
  · intro i hi
    rw [unpack1_pack1_go _ (pad_mult_length_mod 8 buf (by omega)),
      getD_map_zero _ _ (by decide), pad_mult_getD_lt 8 buf i (by omega)]
  · intro i hi
    rw [unpack1_pack1_go _ (pad_mult_length_mod 8 buf (by omega)),
      getD_map_zero _ _ (by decide), pad_mult_getD_ge 8 buf i (by omega)]
    decide
  · intro i hi
    rw [unpack2_pack2_go _ (pad_mult_length_mod 4 buf (by omega)),
      getD_map_zero _ _ (by decide), pad_mult_getD_lt 4 buf i (by omega)]
  · intro i hi
    rw [unpack2_pack2_go _ (pad_mult_length_mod 4 buf (by omega)),
      getD_map_zero _ _ (by decide), pad_mult_getD_ge 4 buf i (by omega)]
    decide
  · intro i hi
    have hmem := getD_lt_mem buf i (by omega)
    have hx := hb _ hmem
    rw [and255_eq_mod]
    omega
  · intro i hi
    rw [List.getD_eq_getElem?_getD, List.getElem?_eq_none (by omega)]
    rfl

/-- C6 witness: the round trip at the concrete buffer `[0xF0, 0x00, 0xA0]`
with `width = 3`, `height = 1`. -/
theorem c6_witness :
    ([0xF0, 0x00, 0xA0] : List Nat).length = 3 * 1 ∧ (∀ x ∈ ([0xF0, 0x00, 0xA0] : List Nat), x < 256)
    ∧ ((∃ p1, process_bitmap_buffer [0xF0, 0x00, 0xA0] 1 3 1 = some p1
      ∧ (∀ i, i < 3 * 1 → (unpack1 p1).getD i 0 = ([0xF0, 0x00, 0xA0] : List Nat).getD i 0 &&& 0x80)
      ∧ (∀ i, 3 * 1 ≤ i → (unpack1 p1).getD i 0 = 0))
    ∧ (∃ p2, process_bitmap_buffer [0xF0, 0x00, 0xA0] 2 3 1 = some p2
      ∧ (∀ i, i < 3 * 1 → (unpack2 p2).getD i 0 = ([0xF0, 0x00, 0xA0] : List Nat).getD i 0 &&& 0xC0)
      ∧ (∀ i, 3 * 1 ≤ i → (unpack2 p2).getD i 0 = 0))
    ∧ (∃ p4, process_bitmap_buffer [0xF0, 0x00, 0xA0] 4 3 1 = some p4
      ∧ ∀ y, y < 1 → ((unpack4 p4 3 1).drop (y * (3 + 3 % 2))).take (3 + 3 % 2)
          = (bufRow [0xF0, 0x00, 0xA0] 3 y).map (fun x => x &&& 0xF0)
            ++ (if 3 % 2 = 1 then [0] else []))
    ∧ (∃ p8, process_bitmap_buffer [0xF0, 0x00, 0xA0] 8 3 1 = some p8
      ∧ (∀ i, i < 3 * 1 → p8.getD i 0 = ([0xF0, 0x00, 0xA0] : List Nat).getD i 0 &&& 0xFF)
      ∧ (∀ i, 3 * 1 ≤ i → p8.getD i 0 = 0))) :=
  ⟨by decide, by decide,
    c6_pack_unpack_roundtrip [0xF0, 0x00, 0xA0] 3 1 (by decide) (by decide)⟩

/-- C7: `pack` output lengths per bit depth — `ceil(w*h/8)` for `bpp = 1`,
`ceil(w*h/4)` for `bpp = 2`, `h * ceil(w/2)` for `bpp = 4`, and the unchanged
input (length `w*h`) for `bpp = 8`; moreover the 1×1 buffer `[0xFF]` at
`bpp = 1` packs to exactly `[0x80]`. -/
theorem c7_pack_lengths (buf : List Nat) (w h : Nat) (hlen : buf.length = w * h) :
    (∃ p1, process_bitmap_buffer buf 1 w h = some p1 ∧ p1.length = (w * h + 7) / 8)
    ∧ (∃ p2, process_bitmap_buffer buf 2 w h = some p2 ∧ p2.length = (w * h + 3) / 4)
    ∧ (∃ p4, process_bitmap_buffer buf 4 w h = some p4 ∧ p4.length = h * ((w + 1) / 2))
    ∧ (∃ p8, process_bitmap_buffer buf 8 w h = some p8 ∧ p8 = buf ∧ p8.length = w * h)
    ∧ process_bitmap_buffer [0xFF] 1 1 1 = some [0x80] := by
  refine ⟨⟨_, rfl, ?_⟩, ⟨_, rfl, ?_⟩, ⟨_, rfl, ?_⟩, ⟨buf, rfl, rfl, hlen⟩, by decide⟩
  · rw [pack1_go_length, pad8_length]
    omega
  · rw [pack2_go_length, pad4_length]
    omega
  · rw [flat_chunks_length _ (row_bytes4 w) h (fun z hz => pack4_row_length buf w h z hlen hz),
      show row_bytes4 w = (w + 1) / 2 from by unfold row_bytes4; omega]

/-- C7 witness: the lengths at the concrete buffer `[0xF0, 0x00, 0xA0]`,
`width = 3`, `height = 1`. -/
theorem c7_witness :
    ([0xF0, 0x00, 0xA0] : List Nat).length = 3 * 1
    ∧ ((∃ p1, process_bitmap_buffer [0xF0, 0x00, 0xA0] 1 3 1 = some p1
        ∧ p1.length = (3 * 1 + 7) / 8)
      ∧ (∃ p2, process_bitmap_buffer [0xF0, 0x00, 0xA0] 2 3 1 = some p2
        ∧ p2.length = (3 * 1 + 3) / 4)
      ∧ (∃ p4, process_bitmap_buffer [0xF0, 0x00, 0xA0] 4 3 1 = some p4
        ∧ p4.length = 1 * ((3 + 1) / 2))
      ∧ (∃ p8, process_bitmap_buffer [0xF0, 0x00, 0xA0] 8 3 1 = some p8
        ∧ p8 = [0xF0, 0x00, 0xA0] ∧ p8.length = 3 * 1)
      ∧ process_bitmap_buffer [0xFF] 1 1 1 = some [0x80]) :=
  ⟨by decide, c7_pack_lengths [0xF0, 0x00, 0xA0] 3 1 (by decide)⟩

theorem getD_append_self (A : List Nat) (t : Nat) : (A ++ [t]).getD A.length 0 = t := by
  rw [List.getD_eq_getElem?_getD, List.getElem?_append_right (Nat.le_refl _), Nat.sub_self]
  rfl

theorem getLastD_eq_getD (l : List Nat) : l.getLastD 0 = l.getD (l.length - 1) 0 := by
  rw [List.getLastD_eq_getLast?, List.getLast?_eq_getElem?, List.getD_eq_getElem?_getD]

theorem bufRow_getD (buf : List Nat) (w y i : Nat) (hi : i < w) :
    (bufRow buf w y).getD i 0 = buf.getD (y * w + i) 0 := by
  rw [List.getD_eq_getElem?_getD, List.getD_eq_getElem?_getD, bufRow,
    List.getElem?_take_of_lt hi, List.getElem?_drop]

theorem pack4_out_getD (buf : List Nat) (w h y j : Nat) (hlen : buf.length = w * h)
    (hy : y < h) (hj : j < row_bytes4 w) :
    ((List.range h).flatMap (pack4_row buf w)).getD (y * row_bytes4 w + j) 0
      = (pack4_row buf w y).getD j 0 := by
  have hext := flat_chunks_extract (pack4_row buf w) (row_bytes4 w) h
    (fun z hz => pack4_row_length buf w h z hlen hz) y hy
  rw [← hext, List.getD_eq_getElem?_getD, List.getD_eq_getElem?_getD,
    List.getElem?_take_of_lt hj, List.getElem?_drop]

theorem pack4_pairs_getD : ∀ (l : List Nat) (j : Nat), 2 * j + 1 < l.length →
    (pack4_pairs l).getD j 0 = (l.getD (2 * j + 1) 0 &&& 0xF0) ||| (l.getD (2 * j) 0 >>> 4)
  | a :: b :: rest, 0, _ => by simp [pack4_pairs]
  | a :: b :: rest, j + 1, hj => by
    have hlt : 2 * j + 1 < rest.length := by
      simp only [List.length_cons] at hj
      omega
    rw [show pack4_pairs (a :: b :: rest)
        = ((b &&& 0xF0) ||| (a >>> 4)) :: pack4_pairs rest from by rw [pack4_pairs],
      List.getD_cons_succ, pack4_pairs_getD rest j hlt,
      show 2 * (j + 1) + 1 = (2 * j + 1) + 1 + 1 from by omega,
      show 2 * (j + 1) = (2 * j) + 1 + 1 from by omega,
      List.getD_cons_succ, List.getD_cons_succ, List.getD_cons_succ, List.getD_cons_succ]
  | [], j, hj => absurd hj (by simp)
  | [a], j, hj => by
    simp only [List.length_cons, List.length_nil] at hj
    omega

/-- C3: the `bpp = 4` packer is per row, packing each consecutive pixel pair
of a row into one byte with the second pixel's top nibble in the high nibble
and the first pixel's top nibble in the low nibble; and concretely
`pack([0xF0, 0x00, 0xA0], 4, 3, 1) = [0x0F, 0x0A]`, of length 2. -/
theorem c3_pack4_per_row :
    (∀ (buf : List Nat) (w h y j : Nat), buf.length = w * h → y < h → 2 * j + 1 < w →
      ∃ p4, process_bitmap_buffer buf 4 w h = some p4
        ∧ p4.getD (y * row_bytes4 w + j) 0
            = (buf.getD (y * w + (2 * j + 1)) 0 &&& 0xF0) ||| (buf.getD (y * w + 2 * j) 0 >>> 4))
    ∧ process_bitmap_buffer [0xF0, 0x00, 0xA0] 4 3 1 = some [0x0F, 0x0A]
    ∧ (process_bitmap_buffer [0xF0, 0x00, 0xA0] 4 3 1).getD [] = [0x0F, 0x0A]
    ∧ ((process_bitmap_buffer [0xF0, 0x00, 0xA0] 4 3 1).getD []).length = 2 := by
  refine ⟨?_, by decide, by decide, by decide⟩
  intro buf w h y j hlen hy hj
  refine ⟨(List.range h).flatMap (pack4_row buf w), rfl, ?_⟩
  have hrl : (bufRow buf w y).length = w := bufRow_length buf w h y hlen hy
  rw [pack4_out_getD buf w h y j hlen hy (by unfold row_bytes4; omega), pack4_row,
    getD_append_left _ _ j (by rw [pack4_pairs_length, hrl]; omega),
    pack4_pairs_getD _ j (by omega)]
  rw [bufRow_getD buf w y _ (by omega), bufRow_getD buf w y _ (by omega)]

/-- C3 witness: the per-row pair formula at `buf = [0xF0, 0x00, 0xA0]`,
`width = 3`, `height = 1`, row 0, pair 0. -/
theorem c3_witness :
    ([0xF0, 0x00, 0xA0] : List Nat).length = 3 * 1 ∧ (0 : Nat) < 1 ∧ 2 * 0 + 1 < 3
    ∧ ∃ p4, process_bitmap_buffer [0xF0, 0x00, 0xA0] 4 3 1 = some p4
      ∧ p4.getD (0 * row_bytes4 3 + 0) 0
          = (([0xF0, 0x00, 0xA0] : List Nat).getD (0 * 3 + (2 * 0 + 1)) 0 &&& 0xF0)
            ||| (([0xF0, 0x00, 0xA0] : List Nat).getD (0 * 3 + 2 * 0) 0 >>> 4) :=
  ⟨by decide, by decide, by decide,
    c3_pack4_per_row.1 [0xF0, 0x00, 0xA0] 3 1 0 0 (by decide) (by decide) (by decide)⟩

/-- C2 counterexample: for `pack([0xF0, 0x00, 0xA0], 4, 3, 1)` the final
unpaired pixel `0xA0` of the odd-width row is emitted as the byte `0x0A`,
whose low nibble is `0xA ≠ 0`: the byte's low nibble is *used* (it carries
the pixel's top nibble), contradicting the claim that the low nibble is
unused/zero. -/
theorem c2_counterexample :
    process_bitmap_buffer [0xF0, 0x00, 0xA0] 4 3 1 = some [0x0F, 0x0A]
    ∧ (0x0A : Nat) &&& 0x0F ≠ 0 := by
  decide

/-- C2 (amended): for `bpp = 4` and every row of odd width, the final
unpaired pixel of the row is emitted alone in one byte as `pixel >> 4`: the
pixel's top nibble occupies the byte's **low** nibble and the byte's **high**
nibble is unused (zero). -/
theorem c2_odd_width_tail (buf : List Nat) (w h y : Nat) (hlen : buf.length = w * h)
    (hw : w % 2 = 1) (hy : y < h) (hb : ∀ x ∈ buf, x < 256) :
    ∃ p4, process_bitmap_buffer buf 4 w h = some p4
      ∧ p4.getD (y * row_bytes4 w + w / 2) 0 = buf.getD (y * w + (w - 1)) 0 >>> 4
      ∧ p4.getD (y * row_bytes4 w + w / 2) 0 &&& 0xF0 = 0 := by
  have hrl : (bufRow buf w y).length = w := bufRow_length buf w h y hlen hy
  have hrow : (pack4_row buf w y).getD (w / 2) 0 = buf.getD (y * w + (w - 1)) 0 >>> 4 := by
    rw [pack4_row, if_pos hw,
      show w / 2 = (pack4_pairs (bufRow buf w y)).length from by
        rw [pack4_pairs_length, hrl],
      getD_append_self, getLastD_eq_getD _, hrl, bufRow_getD buf w y _ (by omega)]
  have hgd := pack4_out_getD buf w h y (w / 2) hlen hy (by unfold row_bytes4; omega)
  refine ⟨(List.range h).flatMap (pack4_row buf w), rfl, by rw [hgd, hrow], ?_⟩
  rw [hgd, hrow]
  have hpix : buf.getD (y * w + (w - 1)) 0 < 256 := by
    rcases Nat.lt_or_ge (y * w + (w - 1)) buf.length with hlt | hge
    · exact hb _ (getD_lt_mem buf _ hlt)
    · rw [List.getD_eq_getElem?_getD, List.getElem?_eq_none hge]
      decide
  rw [shr4_eq, and240_eq]
  omega

/-- C2 witness (amended claim): the odd-width tail byte at the concrete
buffer `[0xF0, 0x00, 0xA0]`, `width = 3`, `height = 1`, row 0. -/
theorem c2_witness :
    ([0xF0, 0x00, 0xA0] : List Nat).length = 3 * 1 ∧ (3 : Nat) % 2 = 1 ∧ (0 : Nat) < 1
    ∧ ∃ p4, process_bitmap_buffer [0xF0, 0x00, 0xA0] 4 3 1 = some p4
      ∧ p4.getD (0 * row_bytes4 3 + 3 / 2) 0
          = ([0xF0, 0x00, 0xA0] : List Nat).getD (0 * 3 + (3 - 1)) 0 >>> 4
      ∧ p4.getD (0 * row_bytes4 3 + 3 / 2) 0 &&& 0xF0 = 0 :=
  ⟨by decide, by decide, by decide,
    c2_odd_width_tail [0xF0, 0x00, 0xA0] 3 1 0 (by decide) (by decide) (by decide) (by decide)⟩

/-- C4 counterexample: with `advance = 10`, `bearingX = -1`, `shaveX = 0`
the code skips the shave block entirely and returns `(10, -1, 0)`, while the
claimed formula `diff = min(advance, bearingX, shaveX) = -1` would give
`(11, 0, 1)`: the claimed step does not hold at `shaveX = 0`. -/
theorem c4_counterexample :
    shave_adjust 10 (-1) 0 = (10, -1, 0)
    ∧ shave_adjust 10 (-1) 0
        ≠ (10 - min 10 (min (-1) 0), -1 - min 10 (min (-1) 0), 0 - min 10 (min (-1) 0)) := by
  constructor
  · rfl
  · intro h
    have h2 : shave_adjust 10 (-1) 0 = (10, -1, 0) := rfl
    rw [h2] at h
    simp only [Prod.mk.injEq] at h
    omega

/-- C4 (amended): for every extraction with positive `shaveX`, step 1
computes `diff = min(advance, bearingX, shaveX)`, subtracts `diff` from both
`advance` and `bearingX`, and sets `remaining = shaveX - diff`; with
`shaveX = 0` the step is skipped — `advance` and `bearingX` are unchanged and
`remaining = 0` — which coincides with the claimed formula whenever `advance`
and `bearingX` are non-negative. -/
theorem c4_shave_step :
    (∀ a b s : Int, 0 < s →
      shave_adjust a b s = (a - min a (min b s), b - min a (min b s), s - min a (min b s)))
    ∧ (∀ a b : Int, shave_adjust a b 0 = (a, b, 0))
    ∧ (∀ a b : Int, 0 ≤ a → 0 ≤ b →
      shave_adjust a b 0 = (a - min a (min b 0), b - min a (min b 0), 0 - min a (min b 0))) := by
  refine ⟨fun a b s hs => ?_, fun a b => ?_, fun a b ha hb => ?_⟩
  · rw [shave_adjust, if_pos hs]
  · rfl
  · rw [shave_adjust, if_neg (by omega)]
    have hm : min a (min b 0) = 0 := by omega
    rw [hm]
    simp

/-- C4 witness: the shave step at `advance = 5`, `bearingX = 7`,
`shaveX = 2` (positive) and at `advance = 4`, `bearingX = 3`, `shaveX = 0`. -/
theorem c4_witness :
    shave_adjust 5 7 2 = (5 - min 5 (min 7 2), 7 - min 5 (min 7 2), 2 - min 5 (min 7 2))
    ∧ shave_adjust 4 3 0 = (4, 3, 0)
    ∧ shave_adjust 4 3 0 = (4 - min 4 (min 3 0), 3 - min 4 (min 3 0), 0 - min 4 (min 3 0)) :=
  ⟨c4_shave_step.1 5 7 2 (by decide), c4_shave_step.2.1 4 3,
    c4_shave_step.2.2 4 3 (by decide) (by decide)⟩

/-- C1 counterexample: for the inverse-colors glyph with `buf = [0x00]`,
`width = rows = 1` at `bpp = 1`, the serializer emits pixel data `[0xFF]`
(the XOR with `0xFF` is applied to the packed byte, inverting the seven
padding bits too), while `pack(XOR(buf, 0xFF), 1, 1, 1) = [0x80]`: the
pixel-packed region of `serialize` is *not* `pack` of the XOR-ed buffer. -/
theorem c1_counterexample :
    Glyph.to_bytes ⟨'?', 1, 1, 0, 0, 0, [0x00], 256, true⟩ 1 = some [1, 1, 0, 0, 0, 0xFF]
    ∧ process_bitmap_buffer (([0x00] : List Nat).map (fun b => b ^^^ 0xFF)) 1 1 1
        = some [0x80]
    ∧ ([0xFF] : List Nat) ≠ [0x80] := by
  decide

/-- C1 (amended): for every inverse-colors glyph with non-empty `buf` whose
serialization succeeds, the pixel-packed region of `serialize(glyph, bpp)`
equals `pack(buf, bpp, width, rows)` with the byte-wise XOR with `0xFF`
applied to every *packed output byte* afterwards: the packer runs on the
untransformed buffer, and the inversion is applied post-packing. -/
theorem c1_serialize_inverse (g : Glyph) (bpp : Nat) (hinv : g.inverse_colors = true)
    (out : List Nat) (hout : Glyph.to_bytes g bpp = some out) (hbuf : g.buf ≠ []) :
    ∃ p, process_bitmap_buffer g.buf bpp g.width g.rows = some p
      ∧ out.drop 5 = p.map (fun b => b ^^^ 0xFF) := by
  rw [Glyph.to_bytes] at hout
  simp only [if_pos hbuf] at hout
  by_cases h1 : ¬ ([(g.width : Int), (g.rows : Int), g.advance, g.bearingX,
      g.bearingY].all fun v => decide (0 ≤ v ∧ v ≤ 255)) = true
  · rw [if_pos h1] at hout
    exact absurd hout (by simp)
  · rw [if_neg h1] at hout
    rcases heq : process_bitmap_buffer g.buf bpp g.width g.rows with _ | packed
    · simp only [heq] at hout
      exact absurd hout (by simp)
    · simp only [heq] at hout
      by_cases h2 : ¬ ((packed.map g.process_byte).all fun v => decide (v ≤ 255)) = true
      · rw [if_pos h2] at hout
        exact absurd hout (by simp)
      · rw [if_neg h2] at hout
        refine ⟨packed, rfl, ?_⟩
        have hinj : [(g.width : Int), (g.rows : Int), g.advance, g.bearingX,
            g.bearingY].map Int.toNat ++ packed.map g.process_byte = out :=
          Option.some.inj hout
        rw [← hinj, List.drop_left' (by simp)]
        exact List.map_congr_left fun b _ => by rw [Glyph.process_byte, if_pos hinv]

/-- C1 witness (amended claim): the inverse-colors glyph `buf = [0x00]`,
`width = rows = 1`, at `bpp = 1`. -/
theorem c1_witness :
    (true = true)
    ∧ Glyph.to_bytes ⟨'?', 1, 1, 0, 0, 0, [0x00], 256, true⟩ 1 = some [1, 1, 0, 0, 0, 0xFF]
    ∧ ([0x00] : List Nat) ≠ []
    ∧ ∃ p, process_bitmap_buffer [0x00] 1 1 1 = some p
      ∧ ([1, 1, 0, 0, 0, 0xFF] : List Nat).drop 5 = p.map (fun b => b ^^^ 0xFF) :=
  ⟨rfl, by decide, by decide,
    c1_serialize_inverse ⟨'?', 1, 1, 0, 0, 0, [0x00], 256, true⟩ 1 rfl
      [1, 1, 0, 0, 0, 0xFF] (by decide) (by decide)⟩

/-- When the shave step leaves a negative `bearingX`, the step was in fact
skipped: `diff = min(advance, bearingX, shaveX) ≤ bearingX` makes a negative
post-shave bearing impossible when `shaveX > 0`. -/
theorem shave_adjust_neg (a b s : Int) (h : (shave_adjust a b s).2.1 < 0) :
    shave_adjust a b s = (a, b, s) ∧ s ≤ 0 ∧ b < 0 := by
  by_cases hs : 0 < s
  · rw [shave_adjust, if_pos hs] at h
    simp only at h
    omega
  · rw [shave_adjust, if_neg hs] at h ⊢
    simp only at h
    exact ⟨rfl, by omega, h⟩

/-- C5 counterexample: the character `'A'` *is* in the allow-list and has
negative `bearingX = -100` after the (skipped) shave step, but with
`advance = 200` the folded advance `300` violates the `advance ≤ 255` assert,
so extraction raises instead of succeeding: the claim's unconditional
"folds ... and succeeds" is false. -/
theorem c5_counterexample :
    Glyph.from_face 'A' 0 0 200 (-100) 0 [] 256 0 false = .error .assertionError
    ∧ 'A' ∈ MODIFY_BEARING_X
    ∧ (shave_adjust 200 (-100) 0).2.1 < 0 := by
  decide

/-- C5 (amended): for every extraction whose `bearingX` is negative after the
shave adjustment, if the character is in the fixed allow-list, extraction
folds the deficit into advance (`advance += -bearingX; bearingX = 0`) and
proceeds, succeeding whenever the subsequent range validations pass (in
particular whenever the folded advance is still within `0..255` and
`bearingY ≤ 255`); if the character is not in the allow-list, extraction
raises `MetricError` (`ValueError`) and never silently zeroes the bearing. -/
theorem c5_negative_bearing :
    (∀ (c : Char) (w rows : Nat) (a bX bY : Int) (buf : List Nat) (ng : Nat) (s : Int)
      (inv : Bool), buf.length = w * rows → (shave_adjust a bX s).2.1 < 0 →
      c ∈ MODIFY_BEARING_X → 0 ≤ a + -bX → a + -bX ≤ 255 → bY ≤ 255 →
      Glyph.from_face c w rows a bX bY buf ng s inv
        = .ok ⟨c, w, rows, a + -bX, 0, if bY < 0 then 0 else bY, buf, ng, inv⟩)
    ∧ (∀ (c : Char) (w rows : Nat) (a bX bY : Int) (buf : List Nat) (ng : Nat) (s : Int)
      (inv : Bool), buf.length = w * rows → (shave_adjust a bX s).2.1 < 0 →
      c ∉ MODIFY_BEARING_X →
      Glyph.from_face c w rows a bX bY buf ng s inv = .error .valueError) := by
  constructor
  · intro c w rows a bX bY buf ng s inv hbuf hneg hc ha0 ha255 hbY
    obtain ⟨hs, hsle, hbneg⟩ := shave_adjust_neg a bX s hneg
    rw [Glyph.from_face, if_neg (not_not_intro hbuf), hs]
    simp only
    rw [if_pos hbneg, if_pos hc, from_face_rest,
      if_neg (by omega : ¬ ¬ (0 ≤ a + -bX ∧ a + -bX ≤ 255)),
      if_neg (by decide : ¬ ¬ ((0 : Int) ≤ 0 ∧ (0 : Int) ≤ 255))]
    simp only
    rw [if_neg (by split <;> omega :
        ¬ ¬ (0 ≤ (if bY < 0 then (0 : Int) else bY) ∧ (if bY < 0 then (0 : Int) else bY) ≤ 255)),
      if_neg (by omega : ¬ (0 < s ∧ 0 < w))]
  · intro c w rows a bX bY buf ng s inv hbuf hneg hc
    rw [Glyph.from_face, if_neg (not_not_intro hbuf)]
    simp only
    rw [if_pos hneg, if_neg hc]

/-- C5 witness: the allow-listed `'A'` with `bearingX = -3`, `advance = 10`
(fold succeeds) and the non-allow-listed `'B'` with the same metrics
(`ValueError`). -/
theorem c5_witness :
    Glyph.from_face 'A' 0 0 10 (-3) 5 [] 256 0 false
        = .ok ⟨'A', 0, 0, 10 + -(-3), 0, if (5 : Int) < 0 then 0 else 5, [], 256, false⟩
    ∧ Glyph.from_face 'B' 0 0 10 (-3) 5 [] 256 0 false = .error .valueError :=
  ⟨c5_negative_bearing.1 'A' 0 0 10 (-3) 5 [] 256 0 false (by decide) (by decide) (by decide)
      (by decide) (by decide) (by decide),
    c5_negative_bearing.2 'B' 0 0 10 (-3) 5 [] 256 0 false (by decide) (by decide) (by decide)⟩

/-- A negative input `bearingY` behaves exactly like `bearingY = 0` in the
tail of the extraction: the clamp is the only place `bearingY` is used. -/
theorem rest_clamp {bY : Int} (h : bY < 0) (c : Char) (w rows : Nat) (a bX : Int)
    (buf : List Nat) (ng : Nat) (rl : Int) (inv : Bool) :
    from_face_rest c w rows a bX bY buf ng rl inv
      = from_face_rest c w rows a bX 0 buf ng rl inv := by
  simp only [from_face_rest, if_pos h,
    show (if (0 : Int) < 0 then (0 : Int) else 0) = 0 from rfl]

theorem rest_ok_bearingY_nonneg {c : Char} {w rows : Nat} {a bX bY : Int} {buf : List Nat}
    {ng : Nat} {rl : Int} {inv : Bool} {g : Glyph} (hbY : ¬ bY < 0)
    (h : from_face_rest c w rows a bX bY buf ng rl inv = .ok g) :
    g.bearingY = bY ∧ 0 ≤ g.bearingY ∧ g.bearingY ≤ 255 := by
  simp only [from_face_rest, if_neg hbY] at h
  split_ifs at h with h1 h2 h3 h4 h5 h6 h7
  all_goals {
    have hg := Except.ok.inj h
    have hgb : g.bearingY = bY := by rw [← hg]
    exact ⟨hgb, by rw [hgb]; omega, by rw [hgb]; omega⟩
  }

theorem rest_ok_bearingY {c : Char} {w rows : Nat} {a bX bY : Int} {buf : List Nat}
    {ng : Nat} {rl : Int} {inv : Bool} {g : Glyph}
    (h : from_face_rest c w rows a bX bY buf ng rl inv = .ok g) :
    g.bearingY = (if bY < 0 then 0 else bY) ∧ 0 ≤ g.bearingY ∧ g.bearingY ≤ 255 := by
  by_cases hbY : bY < 0
  · rw [rest_clamp hbY] at h
    rw [if_pos hbY]
    exact rest_ok_bearingY_nonneg (by decide) h
  · rw [if_neg hbY]
    exact rest_ok_bearingY_nonneg hbY h

theorem from_face_ok_bearingY {c : Char} {w rows : Nat} {a bX bY : Int} {buf : List Nat}
    {ng : Nat} {s : Int} {inv : Bool} {g : Glyph}
    (h : Glyph.from_face c w rows a bX bY buf ng s inv = .ok g) :
    g.bearingY = (if bY < 0 then 0 else bY) ∧ 0 ≤ g.bearingY ∧ g.bearingY ≤ 255 := by
  simp only [Glyph.from_face] at h
  split_ifs at h with h1 h2 h3
  · exact rest_ok_bearingY h
  · exact rest_ok_bearingY h

/-- C8 counterexample: an extraction whose rasterized `bearingY` is negative
can still raise — here `'B'` (not allow-listed) with `bearingX = -1` raises
`ValueError` even though `bearingY = -1 < 0` — so "extract does not raise"
is false as stated; the clamp concerns only `bearingY` itself. -/
theorem c8_counterexample :
    Glyph.from_face 'B' 0 0 0 (-1) (-1) [] 256 0 false = .error .valueError
    ∧ ((-1 : Int) < 0) := by
  decide

/-- C8 (amended): extraction never raises *because of* a negative `bearingY`:
a negative `bearingY` is clamped to 0, the result being identical to the same
extraction with `bearingY = 0` (the sole silent corrective action in the
pipeline), and every Glyph produced from a negative `bearingY` satisfies
`bearingY = 0`, hence `0 ≤ bearingY ≤ 255` (extraction may still fail for
reasons unrelated to `bearingY`, such as a non-allow-listed negative
`bearingX`). -/
theorem c8_bearing_y_clamp :
    (∀ (c : Char) (w rows : Nat) (a bX bY : Int) (buf : List Nat) (ng : Nat) (s : Int)
      (inv : Bool), bY < 0 →
      Glyph.from_face c w rows a bX bY buf ng s inv
        = Glyph.from_face c w rows a bX 0 buf ng s inv)
    ∧ (∀ (c : Char) (w rows : Nat) (a bX bY : Int) (buf : List Nat) (ng : Nat) (s : Int)
      (inv : Bool) (g : Glyph), bY < 0 →
      Glyph.from_face c w rows a bX bY buf ng s inv = .ok g →
      g.bearingY = 0 ∧ 0 ≤ g.bearingY ∧ g.bearingY ≤ 255) := by
  constructor
  · intro c w rows a bX bY buf ng s inv hbY
    simp only [Glyph.from_face, rest_clamp hbY]
  · intro c w rows a bX bY buf ng s inv g hbY h
    obtain ⟨he, h0, h255⟩ := from_face_ok_bearingY h
    rw [if_pos hbY] at he
    exact ⟨he, h0, h255⟩

/-- C8 witness: `bearingY = -3` at an otherwise-valid extraction of `'?'`:
the result equals the `bearingY = 0` extraction and the produced glyph has
`bearingY = 0`. -/
theorem c8_witness :
    ((-3 : Int) < 0
      ∧ Glyph.from_face '?' 0 0 5 0 (-3) [] 256 0 false
          = Glyph.from_face '?' 0 0 5 0 0 [] 256 0 false)
    ∧ ((⟨'?', 0, 0, 5, 0, 0, [], 256, false⟩ : Glyph).bearingY = 0
      ∧ 0 ≤ (⟨'?', 0, 0, 5, 0, 0, [], 256, false⟩ : Glyph).bearingY
      ∧ (⟨'?', 0, 0, 5, 0, 0, [], 256, false⟩ : Glyph).bearingY ≤ 255) :=
  ⟨⟨by decide, c8_bearing_y_clamp.1 '?' 0 0 5 0 (-3) [] 256 0 false (by decide)⟩,
    c8_bearing_y_clamp.2 '?' 0 0 5 0 (-3) [] 256 0 false
      ⟨'?', 0, 0, 5, 0, 0, [], 256, false⟩ (by decide) (by decide)⟩

/-! ### Vertical-extent fold characterization -/

theorem foldl_min_le_init (f : Glyph → Int) :
    ∀ (l : List Glyph) (a : Int), l.foldl (fun m g => min m (f g)) a ≤ a
  | [], a => le_refl a
  | g :: gs, a =>
    le_trans (foldl_min_le_init f gs (min a (f g))) (min_le_left a (f g))

theorem foldl_max_init_le (f : Glyph → Int) :
    ∀ (l : List Glyph) (a : Int), a ≤ l.foldl (fun m g => max m (f g)) a
  | [], a => le_refl a
  | g :: gs, a =>
    le_trans (le_max_left a (f g)) (foldl_max_init_le f gs (max a (f g)))

theorem foldl_min_le_mem (f : Glyph → Int) :
    ∀ (l : List Glyph) (a : Int), ∀ g ∈ l, l.foldl (fun m g => min m (f g)) a ≤ f g := by
  intro l
  induction l with
  | nil => intro a g hg; simp at hg
  | cons g0 gs ih =>
    intro a g hg
    rcases List.mem_cons.mp hg with he | hm
    · subst he
      exact le_trans (foldl_min_le_init f gs (min a (f g))) (min_le_right a (f g))
    · exact ih (min a (f g0)) g hm

theorem foldl_max_mem_le (f : Glyph → Int) :
    ∀ (l : List Glyph) (a : Int), ∀ g ∈ l, f g ≤ l.foldl (fun m g => max m (f g)) a := by
  intro l
  induction l with
  | nil => intro a g hg; simp at hg
  | cons g0 gs ih =>
    intro a g hg
    rcases List.mem_cons.mp hg with he | hm
    · subst he
      exact le_trans (le_max_right a (f g)) (foldl_max_init_le f gs (max a (f g)))
    · exact ih (max a (f g0)) g hm

theorem foldl_min_cases (f : Glyph → Int) :
    ∀ (l : List Glyph) (a : Int), l.foldl (fun m g => min m (f g)) a = a
      ∨ ∃ g ∈ l, l.foldl (fun m g => min m (f g)) a = f g := by
  intro l
  induction l with
  | nil => intro a; exact Or.inl rfl
  | cons g0 gs ih =>
    intro a
    rcases ih (min a (f g0)) with he | ⟨g, hg, he⟩
    · rcases min_choice a (f g0) with hm | hm
      · exact Or.inl (by rw [List.foldl_cons, he, hm])
      · exact Or.inr ⟨g0, List.mem_cons_self g0 gs, by rw [List.foldl_cons, he, hm]⟩
    · exact Or.inr ⟨g, List.mem_cons_of_mem g0 hg, by rw [List.foldl_cons, he]⟩

theorem foldl_max_cases (f : Glyph → Int) :
    ∀ (l : List Glyph) (a : Int), l.foldl (fun m g => max m (f g)) a = a
      ∨ ∃ g ∈ l, l.foldl (fun m g => max m (f g)) a = f g := by
  intro l
  induction l with
  | nil => intro a; exact Or.inl rfl
  | cons g0 gs ih =>
    intro a
    rcases ih (max a (f g0)) with he | ⟨g, hg, he⟩
    · rcases max_choice a (f g0) with hm | hm
      · exact Or.inl (by rw [List.foldl_cons, he, hm])
      · exact Or.inr ⟨g0, List.mem_cons_self g0 gs, by rw [List.foldl_cons, he, hm]⟩
    · exact Or.inr ⟨g, List.mem_cons_of_mem g0 hg, by rw [List.foldl_cons, he]⟩

/-- The paired fold computes the two scalar folds componentwise (with the
code's `yMax = yMin + rows` simplified to `bearingY`). -/
theorem font_y_extent_eq (gs : List Glyph) : ∀ acc : Int × Int,
    gs.foldl update_extent acc
      = (gs.foldl (fun m g => min m (g.bearingY - (g.rows : Int))) acc.1,
         gs.foldl (fun m g => max m (g.bearingY : Int)) acc.2) := by
  induction gs with
  | nil => intro acc; rfl
  | cons g gs ih =>
    intro acc
    have hupd : update_extent acc g
        = (min acc.1 (g.bearingY - (g.rows : Int)), max acc.2 (g.bearingY : Int)) := by
      rw [update_extent, show g.bearingY - (g.rows : Int) + g.rows = g.bearingY from by omega]
    rw [List.foldl_cons, List.foldl_cons, List.foldl_cons, ih (update_extent acc g), hupd]

/-- C9: the whole-font vertical extent is the fold over all glyphs of the
built variant with accumulators seeded at 0: each step takes the minimum with
`yMin = bearingY - rows` and the maximum with `yMax = yMin + rows = bearingY`,
so `fontYMin` is the minimum of 0 and all `yMin` (attained at 0 or at some
glyph), `fontYMax` the maximum of 0 and all `yMax`, and the emitted font info
has `baseline = -fontYMin` and `max_height = fontYMax - fontYMin`. -/
theorem c9_font_extent (gs : List Glyph) :
    (∀ (acc : Int × Int) (g : Glyph), update_extent acc g
        = (min acc.1 (g.bearingY - (g.rows : Int)), max acc.2 (g.bearingY : Int)))
    ∧ (font_y_extent gs).1 ≤ 0 ∧ 0 ≤ (font_y_extent gs).2
    ∧ (∀ g ∈ gs, (font_y_extent gs).1 ≤ g.bearingY - (g.rows : Int)
        ∧ (g.bearingY : Int) ≤ (font_y_extent gs).2)
    ∧ ((font_y_extent gs).1 = 0 ∨ ∃ g ∈ gs, (font_y_extent gs).1 = g.bearingY - (g.rows : Int))
    ∧ ((font_y_extent gs).2 = 0 ∨ ∃ g ∈ gs, (font_y_extent gs).2 = (g.bearingY : Int))
    ∧ font_info_baseline gs = -(font_y_extent gs).1
    ∧ font_info_max_height gs = (font_y_extent gs).2 - (font_y_extent gs).1 := by
  have hext := font_y_extent_eq gs (0, 0)
  rw [font_y_extent] at *
  refine ⟨?_, ?_, ?_, ?_, ?_, ?_, rfl, rfl⟩
  · intro acc g
    rw [update_extent, show g.bearingY - (g.rows : Int) + g.rows = g.bearingY from by omega]
  · rw [hext]
    exact foldl_min_le_init _ gs 0
  · rw [hext]
    exact foldl_max_init_le _ gs 0
  · intro g hg
    rw [hext]
    exact ⟨foldl_min_le_mem _ gs 0 g hg, foldl_max_mem_le _ gs 0 g hg⟩
  · rw [hext]
    exact foldl_min_cases _ gs 0
  · rw [hext]
    exact foldl_max_cases _ gs 0

/-- C9 witness: the extent fold over the single glyph
`bearingY = 5`, `rows = 2`. -/
theorem c9_witness :
    ((font_y_extent [⟨'A', 1, 2, 3, 4, 5, [9, 9], 1, false⟩]).1
        ≤ (⟨'A', 1, 2, 3, 4, 5, [9, 9], 1, false⟩ : Glyph).bearingY
          - ((⟨'A', 1, 2, 3, 4, 5, [9, 9], 1, false⟩ : Glyph).rows : Int)
      ∧ ((⟨'A', 1, 2, 3, 4, 5, [9, 9], 1, false⟩ : Glyph).bearingY : Int)
        ≤ (font_y_extent [⟨'A', 1, 2, 3, 4, 5, [9, 9], 1, false⟩]).2)
    ∧ font_info_baseline [⟨'A', 1, 2, 3, 4, 5, [9, 9], 1, false⟩]
        = -(font_y_extent [⟨'A', 1, 2, 3, 4, 5, [9, 9], 1, false⟩]).1
    ∧ font_info_max_height [⟨'A', 1, 2, 3, 4, 5, [9, 9], 1, false⟩]
        = (font_y_extent [⟨'A', 1, 2, 3, 4, 5, [9, 9], 1, false⟩]).2
          - (font_y_extent [⟨'A', 1, 2, 3, 4, 5, [9, 9], 1, false⟩]).1 :=
  ⟨(c9_font_extent [⟨'A', 1, 2, 3, 4, 5, [9, 9], 1, false⟩]).2.2.2.1
      ⟨'A', 1, 2, 3, 4, 5, [9, 9], 1, false⟩ (by decide),
    (c9_font_extent [⟨'A', 1, 2, 3, 4, 5, [9, 9], 1, false⟩]).2.2.2.2.2.2.1,
    (c9_font_extent [⟨'A', 1, 2, 3, 4, 5, [9, 9], 1, false⟩]).2.2.2.2.2.2.2⟩

/-- C10: extraction performs no upper-bound validation on `width`/`rows`
(an extraction producing `width = 300 > 255` succeeds), while serialization
fails with an error — `bytes()` rejects values outside `0..255`, modelled as
`none` — for every glyph whose `width` or `rows` exceeds 255, rather than
silently truncating; consequently every successful serialization starts with
the 5 header bytes `[width, rows, advance, bearingX, bearingY]`, each in
`0..255`. -/
theorem c10_header_range :
    (∃ g : Glyph, Glyph.from_face 'a' 300 0 10 0 10 [] 256 0 false = .ok g ∧ 255 < g.width)
    ∧ (∀ (g : Glyph) (bpp : Nat), 255 < g.width ∨ 255 < g.rows → Glyph.to_bytes g bpp = none)
    ∧ (∀ (g : Glyph) (bpp : Nat) (out : List Nat), Glyph.to_bytes g bpp = some out →
        out.take 5 = [g.width, g.rows, g.advance.toNat, g.bearingX.toNat, g.bearingY.toNat]
        ∧ g.width ≤ 255 ∧ g.rows ≤ 255
        ∧ 0 ≤ g.advance ∧ g.advance ≤ 255
        ∧ 0 ≤ g.bearingX ∧ g.bearingX ≤ 255
        ∧ 0 ≤ g.bearingY ∧ g.bearingY ≤ 255
        ∧ 5 ≤ out.length) := by
  refine ⟨⟨⟨'a', 300, 0, 10, 0, 10, [], 256, false⟩, by decide, by decide⟩, ?_, ?_⟩
  · intro g bpp hbig
    rw [Glyph.to_bytes, if_pos]
    intro hall
    simp only [List.all_cons, List.all_nil, Bool.and_eq_true, decide_eq_true_eq] at hall
    obtain ⟨⟨hw0, hw⟩, ⟨hr0, hr⟩, _⟩ := hall
    omega
  · intro g bpp out hout
    rw [Glyph.to_bytes] at hout
    by_cases hall : ¬ ([(g.width : Int), (g.rows : Int), g.advance, g.bearingX,
        g.bearingY].all fun v => decide (0 ≤ v ∧ v ≤ 255)) = true
    · rw [if_pos hall] at hout
      exact absurd hout (by simp)
    · rw [if_neg hall] at hout
      have hranges := not_not.mp hall
      simp only [List.all_cons, List.all_nil, Bool.and_eq_true, decide_eq_true_eq,
        and_true] at hranges
      obtain ⟨⟨hw0, hw⟩, ⟨hr0, hr⟩, ⟨ha0, ha⟩, ⟨hx0, hx⟩, ⟨hy0, hy⟩⟩ := hranges
      have hmap : [(g.width : Int), (g.rows : Int), g.advance, g.bearingX,
          g.bearingY].map Int.toNat
            = [g.width, g.rows, g.advance.toNat, g.bearingX.toNat, g.bearingY.toNat] := by
        simp only [List.map_cons, List.map_nil, Int.toNat_natCast]
      refine ?_
      by_cases hbuf : g.buf ≠ []
      · rw [if_pos hbuf] at hout
        rcases heq : process_bitmap_buffer g.buf bpp g.width g.rows with _ | packed
        · simp only [heq] at hout
          exact absurd hout (by simp)
        · simp only [heq] at hout
          by_cases hdata : ¬ ((packed.map g.process_byte).all fun v => decide (v ≤ 255)) = true
          · rw [if_pos hdata] at hout
            exact absurd hout (by simp)
          · rw [if_neg hdata] at hout
            have hoeq := Option.some.inj hout
            rw [← hoeq]
            refine ⟨?_, by omega, by omega, ha0, ha, hx0, hx, hy0, hy, ?_⟩
            · rw [List.take_left' (by rw [hmap]; rfl)]
              exact hmap
            · rw [List.length_append, hmap]
              simp
      · rw [if_neg hbuf] at hout
        have hoeq := Option.some.inj hout
        rw [← hoeq, hmap]
        refine ⟨List.take_of_length_le (by simp), by omega, by omega, ha0, ha, hx0, hx,
          hy0, hy, by simp⟩

/-- C10 witness: a glyph with `width = 300` fails to serialize, while the
in-range glyph `⟨width 1, rows 1, advance 2, bearingX 3, bearingY 4⟩` with
one pixel serializes with its 5-byte header. -/
theorem c10_witness :
    Glyph.to_bytes ⟨'a', 300, 0, 0, 0, 0, [], 0, false⟩ 4 = none
    ∧ ([1, 1, 2, 3, 4, 7] : List Nat).take 5
        = [(⟨'a', 1, 1, 2, 3, 4, [7], 0, false⟩ : Glyph).width,
           (⟨'a', 1, 1, 2, 3, 4, [7], 0, false⟩ : Glyph).rows,
           (⟨'a', 1, 1, 2, 3, 4, [7], 0, false⟩ : Glyph).advance.toNat,
           (⟨'a', 1, 1, 2, 3, 4, [7], 0, false⟩ : Glyph).bearingX.toNat,
           (⟨'a', 1, 1, 2, 3, 4, [7], 0, false⟩ : Glyph).bearingY.toNat] :=
  ⟨c10_header_range.2.1 ⟨'a', 300, 0, 0, 0, 0, [], 0, false⟩ 4 (Or.inl (by decide)),
    (c10_header_range.2.2 ⟨'a', 1, 1, 2, 3, 4, [7], 0, false⟩ 8 [1, 1, 2, 3, 4, 7]
      (by decide)).1⟩

end GenFont
